import Mathlib

/-!
Verification of the public-comment-analysis repository's adaptive clustering
and insight pipeline specification against the repository's code.

The CDK infrastructure (bin/public-comment-analysis.ts, lib/clustering-stack.ts)
is embedded directly from the TypeScript source.  The pipeline core components
(TextNormalizer, ClusterEngine, RepresentativeSelector, InsightGenerator,
PipelineState) live in Python lambda / SageMaker processing scripts that are
not part of the provided sources; following the rules for missing code they
are modelled from the specification, and each such definition carries a
doc comment starting with `Modelled from the spec:`.
-/

namespace PCA

/-! ## CDK infrastructure embedding (bin/public-comment-analysis.ts,
    lib/clustering-stack.ts, and the earlier revision of the stack) -/

/-- The clustering bucket name computed in the app entry point
(bin/public-comment-analysis.ts line 26):
`clustering-${process.env.CDK_DEFAULT_ACCOUNT}-${process.env.CDK_DEFAULT_REGION}`,
as a function of the account and region strings interpolated. -/
def appClusteringBucketName (account region : String) : String :=
  "clustering-" ++ account ++ "-" ++ region

/-- The bucket name the ClusteringStack itself assigns when creating the
bucket (lib/clustering-stack.ts line 36):
`clustering-${this.account}-${this.region}`, as a function of the stack's
account and region strings. -/
def stackClusteringBucketName (account region : String) : String :=
  "clustering-" ++ account ++ "-" ++ region

/-- S3 event types used by the stack; the source only registers
`s3.EventType.OBJECT_CREATED` notifications. -/
inductive S3EventType where
  | objectCreated
  | objectRemoved
  deriving DecidableEq, Repr

/-- The lambda targets of the clustering bucket's notifications. -/
inductive LambdaTarget where
  | processingLambda
  | analysisLambda
  deriving DecidableEq, Repr

/-- One `addEventNotification` registration: the event type, the destination
lambda, and the optional key filters (a key-start filter and a key-end
filter, as in the `NotificationKeyFilter` the source passes). -/
structure EventNotification where
  event : S3EventType
  target : LambdaTarget
  keyStart : Option (List Char)
  keyEnd : Option (List Char)
  deriving DecidableEq, Repr

/-- The event notifications registered on the clustering bucket in the
current stack (lib/clustering-stack.ts lines 298-319): the processing lambda
for OBJECT_CREATED with prefix filter `before-clustering/` and suffix filter
`.csv`, and the analysis lambda for OBJECT_CREATED with prefix filter
`after-clustering/`. -/
def clusteringNotifications : List EventNotification :=
  [ ⟨S3EventType.objectCreated, LambdaTarget.processingLambda,
      some "before-clustering/".toList, some ".csv".toList⟩,
    ⟨S3EventType.objectCreated, LambdaTarget.analysisLambda,
      some "after-clustering/".toList, none⟩ ]

/-- The event notifications registered in the earlier revision of the stack
(src/unnamed/part_001 lines 152-165): the same two registrations but the
processing-lambda filter has no suffix part. -/
def oldClusteringNotifications : List EventNotification :=
  [ ⟨S3EventType.objectCreated, LambdaTarget.processingLambda,
      some "before-clustering/".toList, none⟩,
    ⟨S3EventType.objectCreated, LambdaTarget.analysisLambda,
      some "after-clustering/".toList, none⟩ ]

/-- Whether a single notification registration fires for an event of type
`ev` on object key `key`: the event type matches and the key passes both
optional filters (S3 key-filter semantics: key starts with the filter's
prefix part and ends with its suffix part). -/
def notificationMatches (n : EventNotification) (ev : S3EventType)
    (key : List Char) : Bool :=
  n.event == ev
    && (match n.keyStart with
        | none => true
        | some p => p.isPrefixOf key)
    && (match n.keyEnd with
        | none => true
        | some s => s.isSuffixOf key)

/-- Whether lambda `t` is invoked by an event of type `ev` on key `key`
under a list of registrations. -/
def lambdaTriggered (ns : List EventNotification) (t : LambdaTarget)
    (ev : S3EventType) (key : List Char) : Bool :=
  ns.any (fun n => n.target == t && notificationMatches n ev key)

/-- C9: the bucket name string computed in the app entry point and passed to
PublicCommentAnalysisStack equals the name the ClusteringStack itself assigns
when creating the bucket, for every account/region pair: both are the
interpolation `clustering-<account>-<region>`, so the two independently
computed names never diverge. -/
theorem C9_bucket_names_agree (account region : String) :
    appClusteringBucketName account region
      = stackClusteringBucketName account region := rfl

/-- C10: the clustering bucket registers exactly two notification targets;
the processing lambda fires exactly for OBJECT_CREATED events whose key
starts with `before-clustering/` and ends with `.csv` (so a non-CSV object
under `before-clustering/` never triggers processing, while the earlier stack
revision, filtering on the prefix alone, did fire for it), and the analysis
lambda fires exactly for OBJECT_CREATED events whose key starts with
`after-clustering/`. -/
theorem C10_event_notifications :
    clusteringNotifications.length = 2
    ∧ (∀ ev key,
        lambdaTriggered clusteringNotifications LambdaTarget.processingLambda ev key
          = (ev == S3EventType.objectCreated
              && "before-clustering/".toList.isPrefixOf key
              && ".csv".toList.isSuffixOf key))
    ∧ (∀ ev key,
        lambdaTriggered clusteringNotifications LambdaTarget.analysisLambda ev key
          = (ev == S3EventType.objectCreated
              && "after-clustering/".toList.isPrefixOf key))
    ∧ lambdaTriggered clusteringNotifications LambdaTarget.processingLambda
        S3EventType.objectCreated "before-clustering/data.json".toList = false
    ∧ lambdaTriggered oldClusteringNotifications LambdaTarget.processingLambda
        S3EventType.objectCreated "before-clustering/data.json".toList = true := by
  refine ⟨rfl, ?_, ?_, by decide, by decide⟩
  · intro ev key
    cases ev with
    | objectCreated =>
        simp [lambdaTriggered, notificationMatches, clusteringNotifications,
          Bool.and_assoc]
    | objectRemoved => rfl
  · intro ev key
    cases ev with
    | objectCreated =>
        simp [lambdaTriggered, notificationMatches, clusteringNotifications]
    | objectRemoved => rfl

/-! ## PipelineState (spec §4.6)

The pipeline-state store is implemented in the Python lambda code
(state table management), which is not among the provided sources; it is
modelled here from the specification. -/

/-- Modelled from the spec: the pipeline stages, in their strict order
`queued -> normalizing -> embedding -> clustering -> analyzing -> completed`
(§4.6); the implementing state-management lambda code is missing from the
sources. -/
inductive Stage where
  | queued
  | normalizing
  | embedding
  | clustering
  | analyzing
  | completed
  deriving DecidableEq, Repr

/-- Position of a stage in the strict order. -/
def Stage.idx : Stage → Nat
  | .queued => 0
  | .normalizing => 1
  | .embedding => 2
  | .clustering => 3
  | .analyzing => 4
  | .completed => 5

/-- The successor of a stage in the strict order, none for the last stage. -/
def Stage.next : Stage → Option Stage
  | .queued => some .normalizing
  | .normalizing => some .embedding
  | .embedding => some .clustering
  | .clustering => some .analyzing
  | .analyzing => some .completed
  | .completed => none

/-- Modelled from the spec: run status `running|completed|failed` (§3,
PipelineRun); the implementing state-management lambda code is missing from
the sources. -/
inductive Status where
  | running
  | completed
  | failed
  deriving DecidableEq, Repr

/-- `completed` and `failed` are terminal (§4.6). -/
def Status.isTerminal : Status → Bool
  | .running => false
  | .completed => true
  | .failed => true

/-- Modelled from the spec: the stored PipelineRun record
`{run_id, stage, progress_percent, partial_results, status, error}` (§3);
the implementing state-management lambda code is missing from the sources. -/
structure PipelineRun where
  runId : String
  stage : Stage
  progressPercent : Nat
  partialResults : List (String × String)
  status : Status
  error : Option String
  deriving DecidableEq, Repr

/-- Modelled from the spec: a partial update passed to `merge`; a `none`
field is absent from the update (§4.6 additive/merge semantics); the
implementing state-management lambda code is missing from the sources. -/
structure PartialUpdate where
  stage : Option Stage
  progressPercent : Option Nat
  partialResults : Option (List (String × String))
  status : Option Status
  error : Option String
  deriving DecidableEq, Repr

/-- Modelled from the spec: `merge(run_id, partial_update)`, the only mutator
of the state store (§4.6); the implementing state-management lambda code is
missing from the sources.  Fields absent from the update are preserved;
a progress value lower than the stored one is rejected (the higher value is
kept); a stage update is accepted only when it keeps the current stage or
advances it to its direct successor in the strict order; a status update is
rejected once the stored status is terminal. -/
def merge (stored : PipelineRun) (u : PartialUpdate) : PipelineRun :=
  { runId := stored.runId
    stage :=
      match u.stage with
      | none => stored.stage
      | some s =>
          if s = stored.stage ∨ Stage.next stored.stage = some s then s
          else stored.stage
    progressPercent :=
      match u.progressPercent with
      | none => stored.progressPercent
      | some p => max stored.progressPercent p
    partialResults :=
      match u.partialResults with
      | none => stored.partialResults
      | some r => r
    status :=
      match u.status with
      | none => stored.status
      | some st => if stored.status.isTerminal then stored.status else st
    error :=
      match u.error with
      | none => stored.error
      | some e => some e }

/-- A partial update carrying only a stage. -/
def stageUpdate (s : Stage) : PartialUpdate := ⟨some s, none, none, none, none⟩

/-- A partial update carrying only a progress percentage. -/
def progressUpdate (p : Nat) : PartialUpdate := ⟨none, some p, none, none, none⟩

/-- A partial update carrying only a status. -/
def statusUpdate (st : Status) : PartialUpdate := ⟨none, none, none, some st, none⟩

/-- The state a run starts in: queued, zero progress, running. -/
def initRun (id : String) : PipelineRun :=
  ⟨id, Stage.queued, 0, [], Status.running, none⟩

/-- Folding a sequence of progress-only merges into the store. -/
def mergeProgressSeq (s : PipelineRun) (ps : List Nat) : PipelineRun :=
  ps.foldl (fun acc p => merge acc (progressUpdate p)) s

/-- The sequence of stored states reached by a sequence of merges,
starting (and including) `s`. -/
def mergeTrace (s : PipelineRun) (us : List PartialUpdate) : List PipelineRun :=
  us.scanl merge s

/-- A single merge either keeps the stored stage or advances it to its
direct successor, whatever the update carries. -/
theorem merge_stage_step (s : PipelineRun) (u : PartialUpdate) :
    (merge s u).stage = s.stage ∨ s.stage.next = some (merge s u).stage := by
  cases h : u.stage with
  | none => left; simp [merge, h]
  | some st =>
      by_cases hc : st = s.stage ∨ Stage.next s.stage = some st
      · have : (merge s u).stage = st := by simp [merge, h, hc]
        rw [this]; exact hc.imp id id
      · left; simp [merge, h, hc]

/-- A single merge never changes a terminal status. -/
theorem merge_status_step (s : PipelineRun) (u : PartialUpdate) :
    s.status.isTerminal = true → (merge s u).status = s.status := by
  intro ht; cases h : u.status <;> simp [merge, h, ht]

/-- The trace of a merge sequence starts with the initial state. -/
theorem head?_mergeTrace (s : PipelineRun) (us : List PartialUpdate) :
    (mergeTrace s us).head? = some s := by
  cases us <;> simp [mergeTrace, List.scanl]

/-- Any single-merge-step relation holds along every merge trace. -/
theorem chain'_mergeTrace {R : PipelineRun → PipelineRun → Prop}
    (hR : ∀ a u, R a (merge a u)) :
    ∀ (us : List PartialUpdate) (s : PipelineRun),
      List.Chain' R (mergeTrace s us)
  | [], s => by simp [mergeTrace, List.scanl]
  | u :: us, s => by
      rw [mergeTrace, List.scanl, List.chain'_cons']
      refine ⟨?_, chain'_mergeTrace hR us (merge s u)⟩
      intro b hb
      have hh : (mergeTrace (merge s u) us).head? = some (merge s u) :=
        head?_mergeTrace _ _
      rw [show List.scanl merge (merge s u) us = mergeTrace (merge s u) us from rfl,
        hh] at hb
      simp only [Option.mem_def, Option.some.injEq] at hb
      rw [← hb]
      exact hR s u

/-- C2: a merge leaves every field that is present in the stored state but
absent from the update unchanged (additive semantics, for each of the stage,
progress, partial-results, status and error fields); in particular, from a
stored state at stage `embedding` with progress at most 60, merging
`{stage := clustering}` and then `{progress_percent := 60}` yields a record
with both `stage = clustering` and `progress_percent = 60`. -/
theorem C2_merge_preserves_absent_fields :
    (∀ (stored : PipelineRun) (u : PartialUpdate),
        (u.stage = none → (merge stored u).stage = stored.stage)
      ∧ (u.progressPercent = none →
          (merge stored u).progressPercent = stored.progressPercent)
      ∧ (u.partialResults = none →
          (merge stored u).partialResults = stored.partialResults)
      ∧ (u.status = none → (merge stored u).status = stored.status)
      ∧ (u.error = none → (merge stored u).error = stored.error))
    ∧ (∀ stored : PipelineRun, stored.stage = Stage.embedding →
        stored.progressPercent ≤ 60 →
        (merge (merge stored (stageUpdate Stage.clustering))
            (progressUpdate 60)).stage = Stage.clustering
        ∧ (merge (merge stored (stageUpdate Stage.clustering))
            (progressUpdate 60)).progressPercent = 60) := by
  constructor
  · intro stored u
    refine ⟨fun h => ?_, fun h => ?_, fun h => ?_, fun h => ?_, fun h => ?_⟩ <;>
      simp [merge, h]
  · intro stored h1 h2
    constructor
    · simp [merge, stageUpdate, progressUpdate, h1, Stage.next]
    · simp [merge, stageUpdate, progressUpdate, h1, Stage.next,
        Nat.max_eq_right h2]

/-- Witness for C2 at a concrete stored state and updates. -/
theorem C2_merge_preserves_absent_fields_witness :
    (merge ⟨"r", Stage.embedding, 40, [], Status.running, none⟩
        (progressUpdate 10)).stage = Stage.embedding
    ∧ (merge (merge ⟨"r", Stage.embedding, 40, [], Status.running, none⟩
          (stageUpdate Stage.clustering)) (progressUpdate 60)).stage
        = Stage.clustering
    ∧ (merge (merge ⟨"r", Stage.embedding, 40, [], Status.running, none⟩
          (stageUpdate Stage.clustering)) (progressUpdate 60)).progressPercent
        = 60 :=
  ⟨(C2_merge_preserves_absent_fields.1 _ _).1 rfl,
    (C2_merge_preserves_absent_fields.2 _ rfl (by decide)).1,
    (C2_merge_preserves_absent_fields.2 _ rfl (by decide)).2⟩

/-- C3: the stored progress after a merge carrying a progress value is the
maximum of the stored value and the update's value, so stored progress never
decreases across any merge; in particular merging progress values
`[10, 40, 25, 70]` into a fresh run leaves stored progress at 70. -/
theorem C3_progress_monotone :
    (∀ (stored : PipelineRun) (u : PartialUpdate) (p : Nat),
        u.progressPercent = some p →
        (merge stored u).progressPercent = max stored.progressPercent p)
    ∧ (∀ (stored : PipelineRun) (u : PartialUpdate),
        stored.progressPercent ≤ (merge stored u).progressPercent)
    ∧ (mergeProgressSeq (initRun "run") [10, 40, 25, 70]).progressPercent
        = 70 := by
  refine ⟨?_, ?_, by decide⟩
  · intro stored u p h
    simp [merge, h]
  · intro stored u
    cases h : u.progressPercent with
    | none => simp [merge, h]
    | some p => simp [merge, h]

/-- Witness for C3 at a concrete stored state and update. -/
theorem C3_progress_monotone_witness :
    (merge (initRun "r") (progressUpdate 40)).progressPercent = max 0 40 :=
  C3_progress_monotone.1 (initRun "r") (progressUpdate 40) 40 rfl

/-- C4: along every merge trace the recorded stage either stays or advances
to its direct successor in the strict order (so no stage is ever skipped);
once the status is terminal no later merge changes it; `failed` is reachable
from any state whose status is `running` (any non-terminal state); and
`completed` and `failed` are exactly the terminal statuses. -/
theorem C4_stage_order_and_terminal :
    (∀ (s : PipelineRun) (us : List PartialUpdate),
        List.Chain'
          (fun a b => b.stage = a.stage ∨ a.stage.next = some b.stage)
          (mergeTrace s us))
    ∧ (∀ (s : PipelineRun) (us : List PartialUpdate),
        List.Chain' (fun a b => a.status.isTerminal = true → b.status = a.status)
          (mergeTrace s us))
    ∧ (∀ s : PipelineRun, s.status = Status.running →
        (merge s (statusUpdate Status.failed)).status = Status.failed)
    ∧ (∀ st : Status,
        st.isTerminal = true ↔ (st = Status.completed ∨ st = Status.failed)) := by
  refine ⟨?_, ?_, ?_, ?_⟩
  · intro s us
    exact chain'_mergeTrace (fun a u => merge_stage_step a u) us s
  · intro s us
    exact chain'_mergeTrace (fun a u => merge_status_step a u) us s
  · intro s h
    simp [merge, statusUpdate, h, Status.isTerminal]
  · intro st
    cases st <;> simp [Status.isTerminal]

/-- Witness for C4 at a concrete run and update sequence. -/
theorem C4_stage_order_and_terminal_witness :
    (merge (initRun "r") (statusUpdate Status.failed)).status = Status.failed :=
  C4_stage_order_and_terminal.2.2.1 (initRun "r") rfl

/-! ## ClusterEngine (spec §4.3)

The clustering engine is implemented in the SageMaker processing script
(docker/sagemaker-processing/processing_script.py), which is not among the
provided sources; it is modelled here from the specification.  Silhouette
scoring of a candidate cluster count is abstracted as a function
`sil : Nat → Option ℚ`, where `none` is a scoring failure (degenerate
clusters) for that candidate. -/

/-- Modelled from the spec: the candidate cluster counts searched when
`n > 5`: the bounded range `2..min(10, n-1)` (§4.3 step 2); the implementing
processing script is missing from the sources. -/
def candidateKs (n : Nat) : List Nat :=
  List.range' 2 (min 10 (n - 1) - 1)

/-- Modelled from the spec: the best-scoring candidate among those whose
silhouette scoring succeeds, as a `(k, score)` pair; candidates that fail
are skipped; `none` when every candidate fails.  Ties prefer the smaller
candidate (the deterministic tie-break left open by the spec). -/
def bestSilhouette (sil : Nat → Option ℚ) : List Nat → Option (Nat × ℚ)
  | [] => none
  | k :: ks =>
      match sil k, bestSilhouette sil ks with
      | none, r => r
      | some sc, none => some (k, sc)
      | some sc, some (k0, s0) =>
          if sc < s0 then some (k0, s0) else some (k, sc)

/-- Modelled from the spec: the adaptive cluster-count policy of
ClusterEngine.cluster as a function of `n`, the number of distinct
embeddings (§4.3 step 2); the implementing processing script is missing
from the sources. -/
def chooseK (sil : Nat → Option ℚ) (n : Nat) : Nat :=
  if n ≤ 2 then 1
  else if n ≤ 5 then min 2 (n - 1)
  else
    match bestSilhouette sil (candidateKs n) with
    | none => 1
    | some (k, _) => k

/-- `bestSilhouette` returns `none` exactly when every candidate's scoring
fails. -/
theorem bestSilhouette_eq_none (sil : Nat → Option ℚ) :
    ∀ ks : List Nat, bestSilhouette sil ks = none ↔ ∀ k ∈ ks, sil k = none := by
  intro ks
  induction ks with
  | nil => simp [bestSilhouette]
  | cons k ks ih =>
      constructor
      · intro h
        cases hk : sil k with
        | none =>
            intro k' hk'
            rcases List.mem_cons.mp hk' with h1 | h1
            · rw [h1]; exact hk
            · refine (ih.mp ?_) k' h1
              rw [bestSilhouette, hk] at h
              exact h
        | some sc =>
            exfalso
            rw [bestSilhouette, hk] at h
            rcases hb : bestSilhouette sil ks with _ | ⟨k0, s0⟩ <;>
              rw [hb] at h
            · exact Option.noConfusion h
            · by_cases hlt : sc < s0 <;> simp [hlt] at h
      · intro h
        rw [bestSilhouette, h k (List.mem_cons_self k ks)]
        exact (ih.mpr (fun k' hk' => h k' (List.mem_cons_of_mem k hk')))

/-- When `bestSilhouette` succeeds, the winner is a candidate whose scoring
succeeded with the returned score, and that score dominates the score of
every candidate whose scoring succeeded. -/
theorem bestSilhouette_spec (sil : Nat → Option ℚ) :
    ∀ (ks : List Nat) (k : Nat) (s : ℚ),
      bestSilhouette sil ks = some (k, s) →
      k ∈ ks ∧ sil k = some s
        ∧ ∀ k' ∈ ks, ∀ sc', sil k' = some sc' → sc' ≤ s := by
  intro ks
  induction ks with
  | nil => intro k s h; exact absurd h (by simp [bestSilhouette])
  | cons a ks ih =>
      intro k s h
      rw [bestSilhouette] at h
      cases ha : sil a with
      | none =>
          rw [ha] at h
          obtain ⟨hmem, hsil, hmax⟩ := ih k s h
          refine ⟨List.mem_cons_of_mem a hmem, hsil, ?_⟩
          intro k' hk' sc' hsc'
          rcases List.mem_cons.mp hk' with h1 | h1
          · rw [h1, ha] at hsc'; exact Option.noConfusion hsc'
          · exact hmax k' h1 sc' hsc'
      | some sc =>
          rw [ha] at h
          rcases hb : bestSilhouette sil ks with _ | ⟨k0, s0⟩ <;> rw [hb] at h
          · have hk : a = k := by cases h; rfl
            have hs : sc = s := by cases h; rfl
            subst hk hs
            refine ⟨List.mem_cons_self a ks, ha, ?_⟩
            intro k' hk' sc' hsc'
            rcases List.mem_cons.mp hk' with h1 | h1
            · rw [h1, ha] at hsc'
              exact le_of_eq (Option.some.inj hsc').symm
            · exfalso
              have := (bestSilhouette_eq_none sil ks).mp hb k' h1
              rw [this] at hsc'; exact Option.noConfusion hsc'
          · obtain ⟨hmem0, hsil0, hmax0⟩ := ih k0 s0 hb
            have h' : (if sc < s0 then some (k0, s0) else some (a, sc))
                = some (k, s) := h
            by_cases hlt : sc < s0
            · rw [if_pos hlt] at h'
              have hk : k0 = k := by cases h'; rfl
              have hs : s0 = s := by cases h'; rfl
              subst hk hs
              refine ⟨List.mem_cons_of_mem a hmem0, hsil0, ?_⟩
              intro k' hk' sc' hsc'
              rcases List.mem_cons.mp hk' with h1 | h1
              · rw [h1, ha] at hsc'
                have hsc : sc' = sc := (Option.some.inj hsc').symm
                rw [hsc]; exact le_of_lt hlt
              · exact hmax0 k' h1 sc' hsc'
            · rw [if_neg hlt] at h'
              have hk : a = k := by cases h'; rfl
              have hs : sc = s := by cases h'; rfl
              subst hk hs
              refine ⟨List.mem_cons_self a ks, ha, ?_⟩
              intro k' hk' sc' hsc'
              rcases List.mem_cons.mp hk' with h1 | h1
              · rw [h1, ha] at hsc'
                exact le_of_eq (Option.some.inj hsc').symm
              · exact le_trans (hmax0 k' h1 sc' hsc') (not_lt.mp hlt)

/-- C1: the chosen cluster count follows the adaptive policy: `n ≤ 2` gives
`k = 1`; `3 ≤ n ≤ 5` gives `k = min 2 (n-1)`; for `n > 5` the candidates are
exactly the bounded range `2..min(10, n-1)`, and the chosen `k` is a
candidate whose silhouette scoring succeeded with a score dominating every
other successful candidate (failed candidates are skipped, never raising),
with `k = 1` when every candidate's scoring fails. -/
theorem C1_adaptive_cluster_count (sil : Nat → Option ℚ) (n : Nat) :
    (n ≤ 2 → chooseK sil n = 1)
    ∧ (3 ≤ n → n ≤ 5 → chooseK sil n = min 2 (n - 1))
    ∧ (5 < n → ∀ k, k ∈ candidateKs n ↔ 2 ≤ k ∧ k ≤ min 10 (n - 1))
    ∧ (5 < n → (∀ k ∈ candidateKs n, sil k = none) → chooseK sil n = 1)
    ∧ (5 < n → ∀ k0 ∈ candidateKs n, ∀ sc0, sil k0 = some sc0 →
        chooseK sil n ∈ candidateKs n
        ∧ ∃ s, sil (chooseK sil n) = some s
            ∧ ∀ k' ∈ candidateKs n, ∀ sc', sil k' = some sc' → sc' ≤ s) := by
  refine ⟨?_, ?_, ?_, ?_, ?_⟩
  · intro h; simp [chooseK, h]
  · intro h3 h5
    have h2 : ¬ n ≤ 2 := by omega
    simp [chooseK, h2, h5]
  · intro h5 k
    rw [candidateKs, List.mem_range'_1]
    rcases Nat.le_total 10 (n - 1) with hle | hle
    · rw [Nat.min_eq_left hle]
      omega
    · rw [Nat.min_eq_right hle]
      omega
  · intro h5 hall
    have h2 : ¬ n ≤ 2 := by omega
    have h5' : ¬ n ≤ 5 := by omega
    have hb : bestSilhouette sil (candidateKs n) = none :=
      (bestSilhouette_eq_none sil (candidateKs n)).mpr hall
    simp [chooseK, h2, h5', hb]
  · intro h5 k0 hk0 sc0 hsc0
    have h2 : ¬ n ≤ 2 := by omega
    have h5' : ¬ n ≤ 5 := by omega
    rcases hb : bestSilhouette sil (candidateKs n) with _ | ⟨k, s⟩
    · exfalso
      have := (bestSilhouette_eq_none sil (candidateKs n)).mp hb k0 hk0
      rw [this] at hsc0; exact Option.noConfusion hsc0
    · obtain ⟨hmem, hsil, hmax⟩ := bestSilhouette_spec sil (candidateKs n) k s hb
      have hck : chooseK sil n = k := by simp [chooseK, h2, h5', hb]
      rw [hck]
      exact ⟨hmem, s, hsil, hmax⟩

/-- A demonstration silhouette-scoring outcome: only candidate 3 scores. -/
def silDemo : Nat → Option ℚ := fun k => if k = 3 then some 1 else none

/-- Witness for C1 at concrete corpus sizes and scoring outcomes. -/
theorem C1_adaptive_cluster_count_witness :
    chooseK silDemo 2 = 1
    ∧ chooseK silDemo 4 = min 2 3
    ∧ chooseK (fun _ => none) 7 = 1
    ∧ chooseK silDemo 7 ∈ candidateKs 7 :=
  ⟨(C1_adaptive_cluster_count silDemo 2).1 (by decide),
    (C1_adaptive_cluster_count silDemo 4).2.1 (by decide) (by decide),
    (C1_adaptive_cluster_count (fun _ => none) 7).2.2.2.1 (by decide)
      (fun k _ => rfl),
    ((C1_adaptive_cluster_count silDemo 7).2.2.2.2 (by decide) 3 (by decide)
      1 rfl).1⟩

/-- Modelled from the spec: whether the label list `a` (one label per
normalized text) leaves one of the clusters `0..k-1` empty (§4.3
invariant 4); the implementing processing script is missing from the
sources. -/
def hasEmptyCluster (k : Nat) (a : List Nat) : Bool :=
  (List.range k).any (fun j => !(decide (j ∈ a)))

/-- Modelled from the spec: run the (library) k-means labelling at count
`k`, treating an empty cluster as an internal failure and retrying with
`k-1`, floor 1 (§4.3 invariant 4); at `k = 1` every text is labelled 0.
`kmeansFn` abstracts the library k-means labelling (which is external to
the repository); the implementing processing script is missing from the
sources.  Returns the label list together with the count actually used. -/
def clusterWithRetry (kmeansFn : Nat → List Nat) (n : Nat) :
    Nat → List Nat × Nat
  | 0 => (List.replicate n 0, 1)
  | 1 => (List.replicate n 0, 1)
  | k + 2 =>
      let a := kmeansFn (k + 2)
      if hasEmptyCluster (k + 2) a then clusterWithRetry kmeansFn n (k + 1)
      else (a, k + 2)

/-- Modelled from the spec: ClusterEngine.cluster — choose the count by the
adaptive policy, then label by k-means with the empty-cluster retry; returns
the label list (position i is the cluster id of text i) and `chosen_k`; the
implementing processing script is missing from the sources. -/
def clusterEngine (sil : Nat → Option ℚ) (kmeansFn : Nat → List Nat)
    (n : Nat) : List Nat × Nat :=
  clusterWithRetry kmeansFn n (chooseK sil n)

/-- Modelled from the spec: the `member_count` of cluster `j` — how many
texts carry label `j`. -/
def memberCount (labels : List Nat) (j : Nat) : Nat := labels.count j

/-- When every label is below `k`, the member counts of clusters `0..k-1`
sum to the number of texts. -/
theorem sum_memberCount_eq_length (l : List Nat) (k : Nat)
    (h : ∀ i ∈ l, i < k) :
    ∑ j ∈ Finset.range k, memberCount l j = l.length := by
  induction l with
  | nil => simp [memberCount]
  | cons x t ih =>
      have hx : x ∈ Finset.range k :=
        Finset.mem_range.mpr (h x (List.mem_cons_self x t))
      have ht : ∀ i ∈ t, i < k := fun i hi => h i (List.mem_cons_of_mem x hi)
      calc ∑ j ∈ Finset.range k, memberCount (x :: t) j
          = ∑ j ∈ Finset.range k,
              (memberCount t j + if x = j then 1 else 0) := by
            refine Finset.sum_congr rfl (fun j _ => ?_)
            simp [memberCount, List.count_cons]
        _ = (∑ j ∈ Finset.range k, memberCount t j)
              + ∑ j ∈ Finset.range k, (if x = j then 1 else 0) := by
            rw [Finset.sum_add_distrib]
        _ = t.length + 1 := by
            rw [ih ht, Finset.sum_ite_eq (Finset.range k) x (fun _ => 1),
              if_pos hx]
        _ = (x :: t).length := by simp

/-- The retry loop's guarantees: a count of at least 1, one label per text,
labels below the count, and every cluster inhabited. -/
theorem clusterWithRetry_spec (kmeansFn : Nat → List Nat) (n : Nat)
    (hn : 1 ≤ n)
    (hlen : ∀ k, 1 ≤ k → (kmeansFn k).length = n)
    (hlt : ∀ k, 1 ≤ k → ∀ i ∈ kmeansFn k, i < k) :
    ∀ k0,
      1 ≤ (clusterWithRetry kmeansFn n k0).2
      ∧ (clusterWithRetry kmeansFn n k0).1.length = n
      ∧ (∀ i ∈ (clusterWithRetry kmeansFn n k0).1,
          i < (clusterWithRetry kmeansFn n k0).2)
      ∧ (∀ j, j < (clusterWithRetry kmeansFn n k0).2 →
          j ∈ (clusterWithRetry kmeansFn n k0).1)
  | 0 => by
      refine ⟨by simp [clusterWithRetry], by simp [clusterWithRetry], ?_, ?_⟩
      · intro i hi
        simp only [clusterWithRetry] at hi ⊢
        exact (List.eq_of_mem_replicate hi) ▸ Nat.one_pos
      · intro j hj
        simp only [clusterWithRetry] at hj ⊢
        have hj0 : j = 0 := Nat.lt_one_iff.mp hj
        rw [hj0]
        exact List.mem_replicate.mpr ⟨by omega, rfl⟩
  | 1 => by
      refine ⟨by simp [clusterWithRetry], by simp [clusterWithRetry], ?_, ?_⟩
      · intro i hi
        simp only [clusterWithRetry] at hi ⊢
        exact (List.eq_of_mem_replicate hi) ▸ Nat.one_pos
      · intro j hj
        simp only [clusterWithRetry] at hj ⊢
        have hj0 : j = 0 := Nat.lt_one_iff.mp hj
        rw [hj0]
        exact List.mem_replicate.mpr ⟨by omega, rfl⟩
  | k + 2 => by
      by_cases h : hasEmptyCluster (k + 2) (kmeansFn (k + 2)) = true
      · have heq : clusterWithRetry kmeansFn n (k + 2)
            = clusterWithRetry kmeansFn n (k + 1) := by
          simp [clusterWithRetry, h]
        rw [heq]
        exact clusterWithRetry_spec kmeansFn n hn hlen hlt (k + 1)
      · have heq : clusterWithRetry kmeansFn n (k + 2)
            = (kmeansFn (k + 2), k + 2) := by
          simp [clusterWithRetry, h]
        rw [heq]
        refine ⟨by omega, hlen (k + 2) (by omega), ?_, ?_⟩
        · intro i hi
          exact hlt (k + 2) (by omega) i hi
        · intro j hj
          have hb := (Bool.not_eq_true _).mp h
          rw [hasEmptyCluster] at hb
          rw [List.any_eq_false] at hb
          simpa using hb j (List.mem_range.mpr hj)

/-- C5: after every ClusterEngine.cluster run (for any scoring outcomes and
any library k-means labelling producing one in-range label per text),
`chosen_k ≥ 1`, the label list has exactly one cluster id per normalized
text, all ids lie in the contiguous range `0..chosen_k-1` with no cluster
empty, and the member counts over the clusters sum to the number of
distinct normalized texts. -/
theorem C5_cluster_invariants (sil : Nat → Option ℚ)
    (kmeansFn : Nat → List Nat) (n : Nat) (hn : 1 ≤ n)
    (hlen : ∀ k, 1 ≤ k → (kmeansFn k).length = n)
    (hlt : ∀ k, 1 ≤ k → ∀ i ∈ kmeansFn k, i < k) :
    1 ≤ (clusterEngine sil kmeansFn n).2
    ∧ (clusterEngine sil kmeansFn n).1.length = n
    ∧ (∀ i ∈ (clusterEngine sil kmeansFn n).1,
        i < (clusterEngine sil kmeansFn n).2)
    ∧ (∀ j, j < (clusterEngine sil kmeansFn n).2 →
        j ∈ (clusterEngine sil kmeansFn n).1)
    ∧ ∑ j ∈ Finset.range (clusterEngine sil kmeansFn n).2,
        memberCount (clusterEngine sil kmeansFn n).1 j = n := by
  obtain ⟨h1, h2, h3, h4⟩ :=
    clusterWithRetry_spec kmeansFn n hn hlen hlt (chooseK sil n)
  simp only [clusterEngine]
  refine ⟨h1, h2, h3, h4, ?_⟩
  rw [sum_memberCount_eq_length _ _ h3]
  exact h2

/-- A demonstration k-means labelling for three texts: text i gets label
`i % k`. -/
def kmeansDemo : Nat → List Nat := fun k => (List.range 3).map (· % k)

/-- Witness for C5 at a concrete three-text corpus. -/
theorem C5_cluster_invariants_witness :
    1 ≤ (clusterEngine silDemo kmeansDemo 3).2
    ∧ (clusterEngine silDemo kmeansDemo 3).1.length = 3
    ∧ ∑ j ∈ Finset.range (clusterEngine silDemo kmeansDemo 3).2,
        memberCount (clusterEngine silDemo kmeansDemo 3).1 j = 3 := by
  have hlen : ∀ k, 1 ≤ k → (kmeansDemo k).length = 3 := by
    intro k _; simp [kmeansDemo]
  have hlt : ∀ k, 1 ≤ k → ∀ i ∈ kmeansDemo k, i < k := by
    intro k hk i hi
    rcases List.mem_map.mp hi with ⟨m, _, hm⟩
    rw [← hm]
    exact Nat.mod_lt m hk
  obtain ⟨h1, h2, _, _, h5⟩ :=
    C5_cluster_invariants silDemo kmeansDemo 3 (by decide) hlen hlt
  exact ⟨h1, h2, h5⟩

/-! ## InsightGenerator (spec §4.5)

The insight generator is implemented in the clustering-analyzer lambda,
which is not among the provided sources; it is modelled here from the
specification.  The generative model's raw responses are external; what the
generator owns is schema validation with bounded retries, so attempt
outcomes are abstracted as `respond : Nat → Option Insight`, `none` being a
response that failed schema validation. -/

/-- Modelled from the spec: the sentiment enum of an Insight (§3); the
implementing clustering-analyzer lambda is missing from the sources. -/
inductive Sentiment where
  | positive
  | neutral
  | negative
  deriving DecidableEq, Repr

/-- Modelled from the spec: a schema-valid Insight (§3), with the error
note carried by degraded placeholders (§4.5); the implementing
clustering-analyzer lambda is missing from the sources. -/
structure Insight where
  clusterId : Nat
  sentiment : Sentiment
  summary : String
  recommendedActions : List String
  organizations : List String
  aiGeneratedSuspects : List String
  errorNote : Option String
  deriving DecidableEq, Repr

/-- Modelled from the spec: the degraded-but-non-fatal placeholder Insight
for a cluster whose responses failed schema validation on every retry:
sentiment neutral, empty actions, an error note (§4.5). -/
def placeholderInsight (cid : Nat) : Insight :=
  ⟨cid, Sentiment.neutral, "", [], [], [],
    some "insight generation failed: model output did not validate"⟩

/-- Modelled from the spec: one cluster's insight generation under a bounded
retry budget (§4.5): attempts `0, 1, ...` are tried in order, the first
schema-valid response wins, and when every attempt within the budget fails
the degraded placeholder is returned instead of raising; the implementing
clustering-analyzer lambda is missing from the sources. -/
def generateInsight (budget : Nat) (cid : Nat)
    (respond : Nat → Option Insight) : Insight :=
  match (List.range budget).findSome? respond with
  | some ins => ins
  | none => placeholderInsight cid

/-- Modelled from the spec: the analyzing step over all clusters — each
cluster's insight is generated independently and the step always finishes,
reaching status completed (§4.5: a single cluster's analysis failure must
not void the other clusters' results); the implementing clustering-analyzer
lambda is missing from the sources. -/
def runAnalysis (budget : Nat) (cids : List Nat)
    (respond : Nat → Nat → Option Insight) : List Insight × Status :=
  (cids.map (fun c => generateInsight budget c (respond c)), Status.completed)

/-- `findSome?` over a list finds nothing when the function fails
everywhere. -/
theorem findSome?_eq_none_of_all_none {α β : Type} {f : α → Option β}
    {l : List α} (h : ∀ a ∈ l, f a = none) : l.findSome? f = none := by
  induction l with
  | nil => rfl
  | cons x t ih =>
      rw [List.findSome?_cons, h x (List.mem_cons_self x t)]
      exact ih (fun a ha => h a (List.mem_cons_of_mem x ha))

/-- C6: a cluster whose responses fail schema validation on every attempt
gets exactly the degraded placeholder (sentiment neutral, empty recommended
actions, an error note) instead of raising; every other cluster's Insight
does not depend on that failure (two response assignments agreeing outside
the failing cluster give the same Insight at every other position); and the
analyzing step still reaches status completed. -/
theorem C6_degraded_insight (budget : Nat) (cids : List Nat)
    (respond respond' : Nat → Nat → Option Insight) (c : Nat)
    (hfail : ∀ a, respond c a = none)
    (hagree : ∀ c', c' ≠ c → respond' c' = respond c') :
    generateInsight budget c (respond c) = placeholderInsight c
    ∧ (placeholderInsight c).sentiment = Sentiment.neutral
    ∧ (placeholderInsight c).recommendedActions = []
    ∧ (placeholderInsight c).errorNote.isSome = true
    ∧ (∀ (i : Nat) (c' : Nat), cids[i]? = some c' → c' ≠ c →
        (runAnalysis budget cids respond').1[i]?
          = (runAnalysis budget cids respond).1[i]?)
    ∧ (runAnalysis budget cids respond).2 = Status.completed := by
  refine ⟨?_, rfl, rfl, rfl, ?_, rfl⟩
  · rw [generateInsight,
      findSome?_eq_none_of_all_none (fun a _ => hfail a)]
  · intro i c' hi hne
    simp only [runAnalysis, List.getElem?_map, hi, Option.map_some']
    rw [hagree c' hne]

/-- A demonstration schema-valid insight for cluster `cid`. -/
def goodInsight (cid : Nat) : Insight :=
  ⟨cid, Sentiment.positive, "summary", ["action"], [], [], none⟩

/-- Demonstration responses: cluster 0 always fails validation, the others
validate immediately. -/
def respondDemo : Nat → Nat → Option Insight :=
  fun c _ => if c = 0 then none else some (goodInsight c)

/-- Demonstration responses differing from `respondDemo` only at cluster 0,
where they validate. -/
def respondDemoAlt : Nat → Nat → Option Insight :=
  fun c _ => if c = 0 then some (goodInsight 99) else some (goodInsight c)

/-- Witness for C6 at a concrete two-cluster run. -/
theorem C6_degraded_insight_witness :
    generateInsight 3 0 (respondDemo 0) = placeholderInsight 0
    ∧ (runAnalysis 3 [0, 1] respondDemoAlt).1[1]?
        = (runAnalysis 3 [0, 1] respondDemo).1[1]?
    ∧ (runAnalysis 3 [0, 1] respondDemo).2 = Status.completed := by
  have hfail : ∀ a, respondDemo 0 a = none := fun a => rfl
  have hagree : ∀ c', c' ≠ 0 → respondDemoAlt c' = respondDemo c' := by
    intro c' h
    funext a
    simp [respondDemoAlt, respondDemo, h]
  obtain ⟨h1, _, _, _, h5, h6⟩ :=
    C6_degraded_insight 3 [0, 1] respondDemo respondDemoAlt 0 hfail hagree
  exact ⟨h1, h5 1 1 rfl (by decide), h6⟩

/-! ## TextNormalizer (spec §4.1)

The text normalizer is implemented in the SageMaker processing script,
which is not among the provided sources; it is modelled here from the
specification.  Text is embedded as a list of character codes; the exact
content hash of a cleaned text is modelled by the cleaned token list itself
(two texts share the hash exactly when their cleaned forms are equal, which
is what an exact content hash is for). -/

/-- Whitespace character codes: space, tab, newline, carriage return. -/
def isWsChar (c : Nat) : Bool := c == 32 || c == 9 || c == 10 || c == 13

/-- Modelled from the spec: lowercasing of a character code (§4.1
"lowercases"); the implementing processing script is missing from the
sources. -/
def lowerChar (c : Nat) : Nat := if 65 ≤ c ∧ c ≤ 90 then c + 32 else c

/-- Modelled from the spec: markup stripping (§4.1 "strips
boilerplate/markup"): characters between `<` (60) and `>` (62) inclusive
are dropped, the state records whether we are inside a tag; the
implementing processing script is missing from the sources. -/
def stripTagsAux : Bool → List Nat → List Nat
  | _, [] => []
  | true, c :: cs =>
      if c == 62 then stripTagsAux false cs else stripTagsAux true cs
  | false, c :: cs =>
      if c == 60 then stripTagsAux true cs else c :: stripTagsAux false cs

/-- Markup stripping from the outside-a-tag state. -/
def stripTags (l : List Nat) : List Nat := stripTagsAux false l

/-- Split on whitespace keeping empty segments: always returns one
(possibly empty) segment per maximal run between whitespace characters. -/
def splitWs : List Nat → List (List Nat)
  | [] => [[]]
  | c :: cs =>
      if isWsChar c then [] :: splitWs cs
      else (c :: (splitWs cs).headI) :: (splitWs cs).tail

/-- Modelled from the spec: whitespace collapsing as tokenization (§4.1
"collapses whitespace"): the token list of a text, dropping the empty
segments between consecutive whitespace characters; the implementing
processing script is missing from the sources. -/
def words (l : List Nat) : List (List Nat) :=
  (splitWs l).filter (fun w => !(w.isEmpty))

/-- Modelled from the spec: the full cleaning pipeline of §4.1 — lowercase,
strip markup, collapse whitespace into tokens; the implementing processing
script is missing from the sources. -/
def cleanWords (l : List Nat) : List (List Nat) :=
  words (stripTags (l.map lowerChar))

/-- Modelled from the spec: document kind (§3); the implementing processing
script is missing from the sources. -/
inductive DocKind where
  | comment
  | attachment
  deriving DecidableEq, Repr

/-- Modelled from the spec: a Document (§3); the implementing processing
script is missing from the sources. -/
structure Document where
  id : String
  sourceText : List Nat
  kind : DocKind
  originCommentId : Option String
  deriving DecidableEq, Repr

/-- Modelled from the spec: a NormalizedText (§3): all contributing
document ids plus the cleaned token list, which also serves as the exact
content hash; the implementing processing script is missing from the
sources. -/
structure NormalizedText where
  documentIds : List String
  tokens : List (List Nat)
  deriving DecidableEq, Repr

/-- The minimum-token threshold of §4.1 (default: texts under 3 tokens are
dropped as noise). -/
def minTokens : Nat := 3

/-- Whether a document survives the minimum-token threshold. -/
def qualifies (d : Document) : Bool :=
  minTokens ≤ (cleanWords d.sourceText).length

/-- Modelled from the spec: TextNormalizer.normalize (§4.1) — clean every
document, drop the ones below the token threshold, and deduplicate by exact
cleaned content, collapsing documents with identical cleaned text into one
NormalizedText recording all contributing document ids; the implementing
processing script is missing from the sources. -/
def normalize (docs : List Document) : List NormalizedText :=
  let qual := docs.filter qualifies
  let keys := (qual.map (fun d => cleanWords d.sourceText)).dedup
  keys.map (fun k =>
    ⟨(qual.filter (fun d => decide (cleanWords d.sourceText = k))).map
        (fun d => d.id),
      k⟩)

/-- Joining a token list back into a text with single spaces. -/
def joinWords : List (List Nat) → List Nat
  | [] => []
  | [w] => w
  | w :: w' :: ws => w ++ 32 :: joinWords (w' :: ws)

/-- Turning NormalizedTexts back into Documents (their cleaned text joined
by single spaces), to express running normalization a second time. -/
def reinject (ns : List NormalizedText) : List Document :=
  ns.map (fun nt => ⟨"renormalized", joinWords nt.tokens, DocKind.comment, none⟩)

/-- The default-valued head of a nonempty list is one of its elements. -/
theorem headI_mem_of_ne_nil {α : Type} [Inhabited α] :
    ∀ {l : List α}, l ≠ [] → l.headI ∈ l
  | [], h => absurd rfl h
  | a :: t, _ => by simp [List.headI]

/-- `splitWs` never returns the empty list of segments. -/
theorem splitWs_ne_nil (l : List Nat) : splitWs l ≠ [] := by
  cases l with
  | nil => simp [splitWs]
  | cons c cs =>
      by_cases h : isWsChar c <;> simp [splitWs, h]

/-- Every character of every segment of `splitWs l` is a character of `l`. -/
theorem mem_of_mem_splitWs :
    ∀ (l : List Nat) (w : List Nat), w ∈ splitWs l → ∀ c ∈ w, c ∈ l := by
  intro l
  induction l with
  | nil =>
      intro w hw c hc
      simp [splitWs] at hw
      rw [hw] at hc
      simp at hc
  | cons x t ih =>
      intro w hw c hc
      by_cases hx : isWsChar x
      · rw [splitWs, if_pos hx] at hw
        rcases List.mem_cons.mp hw with h1 | h1
        · rw [h1] at hc; simp at hc
        · exact List.mem_cons_of_mem x (ih w h1 c hc)
      · rw [splitWs, if_neg hx] at hw
        rcases List.mem_cons.mp hw with h1 | h1
        · rw [h1] at hc
          rcases List.mem_cons.mp hc with h2 | h2
          · rw [h2]; exact List.mem_cons_self x t
          · have hh : (splitWs t).headI ∈ splitWs t :=
              headI_mem_of_ne_nil (splitWs_ne_nil t)
            exact List.mem_cons_of_mem x (ih _ hh c h2)
        · have hmem : w ∈ splitWs t := List.mem_of_mem_tail h1
          exact List.mem_cons_of_mem x (ih w hmem c hc)

/-- No character of any segment of `splitWs l` is whitespace. -/
theorem splitWs_no_ws :
    ∀ (l : List Nat) (w : List Nat), w ∈ splitWs l →
      ∀ c ∈ w, isWsChar c = false := by
  intro l
  induction l with
  | nil =>
      intro w hw c hc
      simp [splitWs] at hw
      rw [hw] at hc
      simp at hc
  | cons x t ih =>
      intro w hw c hc
      by_cases hx : isWsChar x
      · rw [splitWs, if_pos hx] at hw
        rcases List.mem_cons.mp hw with h1 | h1
        · rw [h1] at hc; simp at hc
        · exact ih w h1 c hc
      · rw [splitWs, if_neg hx] at hw
        rcases List.mem_cons.mp hw with h1 | h1
        · rw [h1] at hc
          rcases List.mem_cons.mp hc with h2 | h2
          · rw [h2]; exact Bool.not_eq_true _ ▸ hx
          · have hh : (splitWs t).headI ∈ splitWs t :=
              headI_mem_of_ne_nil (splitWs_ne_nil t)
            exact ih _ hh c h2
        · exact ih w (List.mem_of_mem_tail h1) c hc

/-- A token is good when it is nonempty and all its characters are
non-whitespace, not `<`, and fixed by lowercasing — exactly what the
cleaning pipeline guarantees of its output tokens. -/
def goodToken (w : List Nat) : Prop :=
  w ≠ [] ∧ ∀ c ∈ w, isWsChar c = false ∧ c ≠ 60 ∧ lowerChar c = c

/-- Characters outside the uppercase range are fixed by lowercasing. -/
theorem lowerChar_fix {c : Nat} (h : ¬(65 ≤ c ∧ c ≤ 90)) : lowerChar c = c := by
  simp [lowerChar, h]

/-- Lowercasing is idempotent on characters. -/
theorem lowerChar_idem (c : Nat) : lowerChar (lowerChar c) = lowerChar c := by
  by_cases h : 65 ≤ c ∧ c ≤ 90
  · have h1 : lowerChar c = c + 32 := by simp [lowerChar, h]
    rw [h1]
    exact lowerChar_fix (by omega)
  · rw [lowerChar_fix h]
    exact lowerChar_fix h

/-- A list of lowercasing-fixed characters is fixed by lowercasing. -/
theorem map_lowerChar_fixed :
    ∀ {l : List Nat}, (∀ c ∈ l, lowerChar c = c) → l.map lowerChar = l := by
  intro l h
  induction l with
  | nil => rfl
  | cons x t ih =>
      rw [List.map_cons, h x (List.mem_cons_self x t),
        ih (fun c hc => h c (List.mem_cons_of_mem x hc))]

/-- Every character of a lowercased list is fixed by lowercasing. -/
theorem lowerChar_fixed_of_mem_map {l : List Nat} {c : Nat}
    (h : c ∈ l.map lowerChar) : lowerChar c = c := by
  rcases List.mem_map.mp h with ⟨c0, _, hc⟩
  rw [← hc]
  exact lowerChar_idem c0

/-- Markup stripping leaves no `<` (code 60) in its output. -/
theorem not_mem_60_stripTagsAux :
    ∀ (b : Bool) (l : List Nat), 60 ∉ stripTagsAux b l := by
  intro b l
  induction l generalizing b with
  | nil => cases b <;> simp [stripTagsAux]
  | cons x t ih =>
      cases b with
      | true =>
          by_cases h : x == 62 <;> simp [stripTagsAux, h] <;> exact ih _
      | false =>
          by_cases h : x == 60
          · simp [stripTagsAux, h]
            exact ih _
          · simp only [stripTagsAux, h, if_false, Bool.false_eq_true]
            intro hmem
            rcases List.mem_cons.mp hmem with h1 | h1
            · rw [h1] at h; simp at h
            · exact ih false h1

/-- Markup stripping is the identity on text without `<`. -/
theorem stripTagsAux_false_id :
    ∀ (l : List Nat), 60 ∉ l → stripTagsAux false l = l := by
  intro l
  induction l with
  | nil => intro _; rfl
  | cons x t ih =>
      intro h
      have hx : ¬ x == 60 := by
        simp only [beq_iff_eq]
        intro hh
        exact h (hh ▸ List.mem_cons_self x t)
      rw [stripTagsAux, if_neg (by simpa using hx),
        ih (fun hm => h (List.mem_cons_of_mem x hm))]

/-- Every character surviving markup stripping was in the input. -/
theorem mem_of_mem_stripTagsAux :
    ∀ (b : Bool) (l : List Nat) (c : Nat), c ∈ stripTagsAux b l → c ∈ l := by
  intro b l
  induction l generalizing b with
  | nil => intro c hc; cases b <;> simp [stripTagsAux] at hc
  | cons x t ih =>
      intro c hc
      cases b with
      | true =>
          by_cases h : x == 62 <;> rw [stripTagsAux] at hc <;>
            simp only [h, if_true, if_false] at hc <;>
            exact List.mem_cons_of_mem x (ih _ c (by simpa using hc))
      | false =>
          by_cases h : x == 60
          · rw [stripTagsAux, if_pos (by simpa using h)] at hc
            exact List.mem_cons_of_mem x (ih _ c hc)
          · rw [stripTagsAux, if_neg (by simpa using h)] at hc
            rcases List.mem_cons.mp hc with h1 | h1
            · rw [h1]; exact List.mem_cons_self x t
            · exact List.mem_cons_of_mem x (ih _ c h1)

/-- Splitting a non-whitespace word followed by a space peels the word off
as one segment. -/
theorem splitWs_word_append (t : List Nat) :
    ∀ (w : List Nat), (∀ c ∈ w, isWsChar c = false) →
      splitWs (w ++ 32 :: t) = w :: splitWs t := by
  intro w
  induction w with
  | nil =>
      intro _
      simp [splitWs, isWsChar]
  | cons x v ih =>
      intro h
      have hx : isWsChar x = false := h x (List.mem_cons_self x v)
      have hv := ih (fun c hc => h c (List.mem_cons_of_mem x hc))
      rw [List.cons_append, splitWs, if_neg (by simp [hx]), hv]
      simp [List.headI]

/-- Splitting an all-non-whitespace text gives exactly that text as the one
segment. -/
theorem splitWs_of_all_nonws :
    ∀ (w : List Nat), (∀ c ∈ w, isWsChar c = false) → splitWs w = [w] := by
  intro w
  induction w with
  | nil => intro _; rfl
  | cons x v ih =>
      intro h
      have hx : isWsChar x = false := h x (List.mem_cons_self x v)
      rw [splitWs, if_neg (by simp [hx]),
        ih (fun c hc => h c (List.mem_cons_of_mem x hc))]
      simp [List.headI]

/-- Every character of a joined token list is the space separator or a
character of one of the tokens. -/
theorem mem_joinWords :
    ∀ (ws : List (List Nat)) (c : Nat), c ∈ joinWords ws →
      c = 32 ∨ ∃ w ∈ ws, c ∈ w
  | [], c, hc => by simp [joinWords] at hc
  | [w], c, hc => by
      right
      exact ⟨w, List.mem_cons_self w [], by simpa [joinWords] using hc⟩
  | w :: w' :: ws, c, hc => by
      rw [joinWords] at hc
      rcases List.mem_append.mp hc with h1 | h1
      · exact Or.inr ⟨w, List.mem_cons_self w _, h1⟩
      · rcases List.mem_cons.mp h1 with h2 | h2
        · exact Or.inl h2
        · rcases mem_joinWords (w' :: ws) c h2 with h3 | ⟨u, hu, hcu⟩
          · exact Or.inl h3
          · exact Or.inr ⟨u, List.mem_cons_of_mem w hu, hcu⟩

/-- Splitting the space-joined form of nonempty non-whitespace tokens
recovers exactly those tokens. -/
theorem words_joinWords :
    ∀ (ws : List (List Nat)),
      (∀ w ∈ ws, w ≠ [] ∧ ∀ c ∈ w, isWsChar c = false) →
      words (joinWords ws) = ws
  | [], _ => by simp [joinWords, words, splitWs]
  | [w], h => by
      obtain ⟨hne, hnws⟩ := h w (List.mem_cons_self w [])
      rw [joinWords, words, splitWs_of_all_nonws w hnws]
      simp [List.isEmpty_iff, hne]
  | w :: w' :: ws, h => by
      obtain ⟨hne, hnws⟩ := h w (List.mem_cons_self w _)
      have hrest := words_joinWords (w' :: ws)
        (fun u hu => h u (List.mem_cons_of_mem w hu))
      rw [joinWords, words, splitWs_word_append _ w hnws]
      rw [words] at hrest
      simp only [List.filter_cons]
      rw [hrest]
      simp [List.isEmpty_iff, hne]

/-- Every token the cleaning pipeline produces is good. -/
theorem goodToken_of_mem_cleanWords (l : List Nat) (w : List Nat)
    (hw : w ∈ cleanWords l) : goodToken w := by
  rw [cleanWords, words] at hw
  rcases List.mem_filter.mp hw with ⟨hsplit, hne⟩
  refine ⟨by simpa [List.isEmpty_iff] using hne, ?_⟩
  intro c hc
  have hmem : c ∈ stripTags (l.map lowerChar) :=
    mem_of_mem_splitWs _ w hsplit c hc
  refine ⟨splitWs_no_ws _ w hsplit c hc, ?_, ?_⟩
  · intro h60
    exact not_mem_60_stripTagsAux false (l.map lowerChar) (h60 ▸ hmem)
  · exact lowerChar_fixed_of_mem_map
      (mem_of_mem_stripTagsAux false (l.map lowerChar) c hmem)

/-- Cleaning the space-joined form of good tokens recovers exactly those
tokens. -/
theorem cleanWords_joinWords (ws : List (List Nat))
    (h : ∀ w ∈ ws, goodToken w) : cleanWords (joinWords ws) = ws := by
  have hfix : (joinWords ws).map lowerChar = joinWords ws := by
    apply map_lowerChar_fixed
    intro c hc
    rcases mem_joinWords ws c hc with h32 | ⟨w, hw, hcw⟩
    · rw [h32]; rfl
    · exact ((h w hw).2 c hcw).2.2
  have h60 : 60 ∉ joinWords ws := by
    intro hmem
    rcases mem_joinWords ws 60 hmem with h32 | ⟨w, hw, hcw⟩
    · omega
    · exact ((h w hw).2 60 hcw).2.1 rfl
  rw [cleanWords, hfix, stripTags, stripTagsAux_false_id _ h60]
  exact words_joinWords ws (fun w hw => ⟨(h w hw).1, fun c hc => ((h w hw).2 c hc).1⟩)

/-- The content hashes (cleaned token lists) produced by `normalize` are the
deduplicated cleaned forms of the qualifying documents. -/
theorem normalize_map_tokens (docs : List Document) :
    (normalize docs).map NormalizedText.tokens
      = ((docs.filter qualifies).map
          (fun d => cleanWords d.sourceText)).dedup := by
  simp only [normalize, List.map_map]
  exact List.map_id _

/-- Every content hash of `normalize docs` is the cleaned form of some
qualifying document. -/
theorem mem_tokens_normalize {docs : List Document} {k : List (List Nat)}
    (h : k ∈ (normalize docs).map NormalizedText.tokens) :
    ∃ d ∈ docs, qualifies d = true ∧ cleanWords d.sourceText = k := by
  rw [normalize_map_tokens] at h
  rcases List.mem_map.mp (List.mem_dedup.mp h) with ⟨d, hd, hk⟩
  rcases List.mem_filter.mp hd with ⟨hdocs, hq⟩
  exact ⟨d, hdocs, hq, hk⟩

/-- C7: normalization is idempotent with respect to deduplication — feeding
the normalized texts (joined back into documents) through `normalize` again
yields the identical content-hash list, the content hashes of a
normalization are pairwise distinct (same membership), and any two documents
with identical cleaned text collapse into a single NormalizedText recording
both contributing document ids. -/
theorem C7_normalize_idempotent_dedup (docs : List Document) :
    ((normalize (reinject (normalize docs))).map NormalizedText.tokens
        = (normalize docs).map NormalizedText.tokens)
    ∧ ((normalize docs).map NormalizedText.tokens).Nodup
    ∧ (∀ d1 ∈ docs, ∀ d2 ∈ docs, qualifies d1 = true →
        cleanWords d1.sourceText = cleanWords d2.sourceText →
        ∃ nt ∈ normalize docs,
          nt.tokens = cleanWords d1.sourceText
          ∧ d1.id ∈ nt.documentIds ∧ d2.id ∈ nt.documentIds) := by
  have hnodup : ((normalize docs).map NormalizedText.tokens).Nodup := by
    rw [normalize_map_tokens]
    exact List.nodup_dedup _
  refine ⟨?_, hnodup, ?_⟩
  · have hkey : ∀ nt ∈ normalize docs,
        cleanWords (joinWords nt.tokens) = nt.tokens
        ∧ minTokens ≤ nt.tokens.length := by
      intro nt hnt
      have htok : nt.tokens ∈ (normalize docs).map NormalizedText.tokens :=
        List.mem_map_of_mem _ hnt
      rcases mem_tokens_normalize htok with ⟨d, _, hq, hk⟩
      refine ⟨?_, ?_⟩
      · apply cleanWords_joinWords
        intro w hw
        rw [← hk] at hw
        exact goodToken_of_mem_cleanWords _ w hw
      · rw [← hk]
        exact of_decide_eq_true hq
    rw [normalize_map_tokens (reinject (normalize docs))]
    have hfilter : (reinject (normalize docs)).filter qualifies
        = reinject (normalize docs) := by
      apply List.filter_eq_self.mpr
      intro d' hd'
      rcases List.mem_map.mp hd' with ⟨nt, hnt, hdd⟩
      obtain ⟨hck, hlen⟩ := hkey nt hnt
      rw [← hdd]
      show decide (minTokens ≤ (cleanWords (joinWords nt.tokens)).length) = true
      rw [hck]
      exact decide_eq_true hlen
    rw [hfilter]
    have hmap : (reinject (normalize docs)).map (fun d => cleanWords d.sourceText)
        = (normalize docs).map NormalizedText.tokens := by
      rw [reinject, List.map_map]
      apply List.map_congr_left
      intro nt hnt
      exact (hkey nt hnt).1
    rw [hmap]
    exact List.dedup_eq_self.mpr hnodup
  · intro d1 h1 d2 h2 hq1 heq
    have hq2 : qualifies d2 = true := by
      have := of_decide_eq_true hq1
      rw [heq] at this
      exact decide_eq_true this
    have hd1q : d1 ∈ docs.filter qualifies := List.mem_filter.mpr ⟨h1, hq1⟩
    have hd2q : d2 ∈ docs.filter qualifies := List.mem_filter.mpr ⟨h2, hq2⟩
    have hkmem : cleanWords d1.sourceText
        ∈ ((docs.filter qualifies).map
            (fun d => cleanWords d.sourceText)).dedup :=
      List.mem_dedup.mpr (List.mem_map_of_mem _ hd1q)
    refine ⟨⟨((docs.filter qualifies).filter
        (fun d => decide (cleanWords d.sourceText = cleanWords d1.sourceText))).map
          (fun d => d.id),
        cleanWords d1.sourceText⟩, ?_, rfl, ?_, ?_⟩
    · exact List.mem_map_of_mem _ hkmem
    · exact List.mem_map_of_mem _
        (List.mem_filter.mpr ⟨hd1q, decide_eq_true rfl⟩)
    · exact List.mem_map_of_mem _
        (List.mem_filter.mpr ⟨hd2q, decide_eq_true heq.symm⟩)

/-- A demonstration document: `Good Plan  Yes`. -/
def docA : Document :=
  ⟨"dA", [71, 111, 111, 100, 32, 80, 108, 97, 110, 32, 32, 89, 101, 115],
    DocKind.comment, none⟩

/-- A demonstration document whose cleaned text coincides with `docA`'s:
`good  plan yes` (different case and spacing, same cleaned form). -/
def docB : Document :=
  ⟨"dB", [103, 111, 111, 100, 32, 32, 112, 108, 97, 110, 32, 121, 101, 115],
    DocKind.attachment, some "dA"⟩

/-- Witness for C7 at a concrete two-document corpus with identical cleaned
text. -/
theorem C7_normalize_idempotent_dedup_witness :
    ∃ nt ∈ normalize [docA, docB],
      nt.tokens = cleanWords docA.sourceText
      ∧ docA.id ∈ nt.documentIds ∧ docB.id ∈ nt.documentIds :=
  (C7_normalize_idempotent_dedup [docA, docB]).2.2 docA (by decide) docB
    (by decide) (by decide) (by decide)

/-! ## RepresentativeSelector (spec §4.4)

The representative selector is implemented in the SageMaker processing
script, which is not among the provided sources; it is modelled here from
the specification.  Embedding vectors are lists of rationals; a cluster
member pairs a normalized-text id with its embedding. -/

/-- Modelled from the spec: a cluster member — a normalized text id with
its embedding vector (§4.4); the implementing processing script is missing
from the sources. -/
structure Member where
  ntId : Nat
  vec : List ℚ
  deriving DecidableEq, Repr

/-- Squared euclidean distance between two vectors. -/
def sqDist (u v : List ℚ) : ℚ :=
  ((List.zipWith (fun a b => a - b) u v).map (fun x => x * x)).sum

/-- Modelled from the spec: the centroid of a set of vectors — the
componentwise mean (§4.4); the implementing processing script is missing
from the sources. -/
def centroid (vs : List (List ℚ)) : List ℚ :=
  (List.range vs.headI.length).map
    (fun i => (vs.map (fun v => v.getD i 0)).sum / (vs.length : ℚ))

/-- The selector's ranking order: by distance to the centroid, closest
first, ties broken deterministically by the normalized-text id. -/
def selOrder (ctr : List ℚ) (a b : Member) : Prop :=
  sqDist ctr a.vec < sqDist ctr b.vec
  ∨ (sqDist ctr a.vec = sqDist ctr b.vec ∧ a.ntId ≤ b.ntId)

instance (ctr : List ℚ) : DecidableRel (selOrder ctr) := fun a b => by
  unfold selOrder
  infer_instance

instance (ctr : List ℚ) : IsTotal Member (selOrder ctr) := ⟨by
  intro a b
  rcases lt_trichotomy (sqDist ctr a.vec) (sqDist ctr b.vec) with h | h | h
  · exact Or.inl (Or.inl h)
  · rcases Nat.le_total a.ntId b.ntId with hn | hn
    · exact Or.inl (Or.inr ⟨h, hn⟩)
    · exact Or.inr (Or.inr ⟨h.symm, hn⟩)
  · exact Or.inr (Or.inl h)⟩

instance (ctr : List ℚ) : IsTrans Member (selOrder ctr) := ⟨by
  intro a b c hab hbc
  rcases hab with h1 | ⟨h1, h1'⟩ <;> rcases hbc with h2 | ⟨h2, h2'⟩
  · exact Or.inl (lt_trans h1 h2)
  · exact Or.inl (h2 ▸ h1)
  · exact Or.inl (h1 ▸ h2)
  · exact Or.inr ⟨h1.trans h2, le_trans h1' h2'⟩⟩

/-- The fallback member used with `getLastD` (never returned for nonempty
clusters). -/
def defaultMember : Member := ⟨0, []⟩

/-- Modelled from the spec: RepresentativeSelector.select (§4.4): rank the
cluster's members closest-to-centroid first (deterministic id tie-break),
return up to `limit` of them, and when truncating always append the
farthest-from-centroid member (the guaranteed outlier); the implementing
processing script is missing from the sources. -/
def select (limit : Nat) (members : List Member) : List Member :=
  let ctr := centroid (members.map Member.vec)
  let sorted := List.insertionSort (selOrder ctr) members
  if sorted.length ≤ limit then sorted
  else sorted.take (limit - 1) ++ [sorted.getLastD defaultMember]

/-- The ranking order implies the distance comparison. -/
theorem selOrder_dist_le {ctr : List ℚ} {a b : Member}
    (h : selOrder ctr a b) : sqDist ctr a.vec ≤ sqDist ctr b.vec := by
  rcases h with h | ⟨h, _⟩
  · exact le_of_lt h
  · exact le_of_eq h

/-- The ranking order is reflexive. -/
theorem selOrder_refl (ctr : List ℚ) (a : Member) : selOrder ctr a a :=
  Or.inr ⟨rfl, le_refl _⟩

/-- The default-valued last element of a nonempty list does not depend on
the fallback. -/
theorem getLastD_irrel {α : Type} :
    ∀ (l : List α), l ≠ [] → ∀ (d d' : α), l.getLastD d = l.getLastD d'
  | [], h => absurd rfl h
  | [_], _ => fun _ _ => rfl
  | _ :: _ :: _, _ => fun _ _ => rfl

/-- The default-valued last element of a nonempty list is one of its
elements. -/
theorem getLastD_mem {α : Type} (d : α) :
    ∀ (l : List α), l ≠ [] → l.getLastD d ∈ l
  | [], h => absurd rfl h
  | [a], _ => by simp
  | a :: b :: t, _ => by
      have hmem := getLastD_mem a (b :: t) (by simp)
      rw [show (a :: b :: t).getLastD d = (b :: t).getLastD a from rfl]
      exact List.mem_cons_of_mem a hmem

/-- In a sorted member list, every element is ranked at or below the last
element. -/
theorem sorted_rel_getLastD {ctr : List ℚ} :
    ∀ (l : List Member), l.Sorted (selOrder ctr) →
      ∀ a ∈ l, selOrder ctr a (l.getLastD defaultMember)
  | [], _, a, ha => by simp at ha
  | [x], _, a, ha => by
      rw [List.mem_singleton.mp ha]
      exact selOrder_refl ctr x
  | x :: y :: t, hs, a, ha => by
      have hlast : (x :: y :: t).getLastD defaultMember
          = (y :: t).getLastD defaultMember := by
        rw [show (x :: y :: t).getLastD defaultMember
            = (y :: t).getLastD x from rfl]
        exact getLastD_irrel (y :: t) (by simp) x defaultMember
      rw [hlast]
      have hmem : (y :: t).getLastD defaultMember ∈ y :: t :=
        getLastD_mem defaultMember (y :: t) (by simp)
      rcases List.mem_cons.mp ha with h1 | h1
      · rw [h1]
        exact List.rel_of_sorted_cons hs _ hmem
      · exact sorted_rel_getLastD (y :: t) hs.of_cons a h1

/-- Sorted lists that are permutations of each other are equal, given
antisymmetry of the order on the elements actually present. -/
theorem eq_of_perm_of_sorted_anti {α : Type} {r : α → α → Prop} :
    ∀ {l₁ l₂ : List α}, l₁.Perm l₂ → l₁.Sorted r → l₂.Sorted r →
      (∀ a ∈ l₁, ∀ b ∈ l₁, r a b → r b a → a = b) → l₁ = l₂
  | [], l₂, hp, _, _, _ => hp.nil_eq
  | a :: t₁, [], hp, _, _, _ => by
      have := hp.length_eq
      simp at this
  | a :: t₁, b :: t₂, hp, hs₁, hs₂, hanti => by
      have hab : a = b := by
        by_contra hne
        have hamem : a ∈ b :: t₂ := hp.mem_iff.mp (List.mem_cons_self a t₁)
        have hbmem : b ∈ a :: t₁ :=
          hp.symm.mem_iff.mp (List.mem_cons_self b t₂)
        have hat₂ : a ∈ t₂ := by
          rcases List.mem_cons.mp hamem with h | h
          · exact absurd h hne
          · exact h
        have hbt₁ : b ∈ t₁ := by
          rcases List.mem_cons.mp hbmem with h | h
          · exact absurd h.symm hne
          · exact h
        have r1 : r a b := List.rel_of_sorted_cons hs₁ b hbt₁
        have r2 : r b a := List.rel_of_sorted_cons hs₂ a hat₂
        exact hne (hanti a (List.mem_cons_self a t₁) b
          (List.mem_cons_of_mem a hbt₁) r1 r2)
      subst hab
      have hp' : t₁.Perm t₂ := hp.cons_inv
      have hrec := eq_of_perm_of_sorted_anti hp' hs₁.of_cons hs₂.of_cons
        (fun x hx y hy => hanti x (List.mem_cons_of_mem a hx) y
          (List.mem_cons_of_mem a hy))
      rw [hrec]

/-- The centroid only depends on the multiset of vectors, for same-dimension
vector families. -/
theorem centroid_perm {vs vs' : List (List ℚ)} (dim : Nat)
    (h : vs.Perm vs') (hd : ∀ v ∈ vs, v.length = dim) :
    centroid vs = centroid vs' := by
  cases vs with
  | nil =>
      rw [h.nil_eq]
  | cons v t =>
      have hne' : vs' ≠ [] := by
        intro hh
        rw [hh] at h
        have := h.length_eq
        simp at this
      have h1 : (v :: t).headI.length = dim :=
        hd v (List.mem_cons_self v t)
      have h2 : vs'.headI.length = dim := by
        have hm : vs'.headI ∈ vs' := headI_mem_of_ne_nil hne'
        exact hd vs'.headI (h.symm.mem_iff.mp hm)
      rw [centroid, centroid, h1, h2]
      apply List.map_congr_left
      intro i _
      rw [(h.map (fun v => v.getD i 0)).sum_eq, h.length_eq]

/-- C8: the selector returns at most `limit` members, ranked
closest-to-centroid first (the output's distances to the centroid are
non-decreasing), drawn from the cluster's members; whenever the cluster has
more than one member the output contains a farthest-from-centroid member;
and the output is invariant under permutation of the member list
(determinism given identical embeddings and cluster assignment), provided
the ids are distinct and the embeddings share one dimension. -/
theorem C8_representative_selection (limit : Nat) (members : List Member)
    (hlim : 1 ≤ limit) :
    (select limit members).length ≤ limit
    ∧ (select limit members).Sorted (fun a b =>
        sqDist (centroid (members.map Member.vec)) a.vec
          ≤ sqDist (centroid (members.map Member.vec)) b.vec)
    ∧ (∀ x ∈ select limit members, x ∈ members)
    ∧ (2 ≤ members.length →
        ∃ far ∈ select limit members,
          ∀ m ∈ members,
            sqDist (centroid (members.map Member.vec)) m.vec
              ≤ sqDist (centroid (members.map Member.vec)) far.vec)
    ∧ (∀ (members' : List Member) (dim : Nat), members.Perm members' →
        (members.map Member.ntId).Nodup →
        (∀ v ∈ members.map Member.vec, v.length = dim) →
        select limit members = select limit members') := by
  set ctr := centroid (members.map Member.vec) with hctr
  have hsorted : (List.insertionSort (selOrder ctr) members).Sorted
      (selOrder ctr) := List.sorted_insertionSort (selOrder ctr) members
  have hperm : (List.insertionSort (selOrder ctr) members).Perm members :=
    List.perm_insertionSort (selOrder ctr) members
  refine ⟨?_, ?_, ?_, ?_, ?_⟩
  · rw [select, ← hctr]
    split
    · omega
    · rw [List.length_append, List.length_singleton]
      have := List.length_take_le (limit - 1)
        (List.insertionSort (selOrder ctr) members)
      omega
  · rw [select, ← hctr]
    split
    · exact hsorted.imp (fun h => selOrder_dist_le h)
    · rw [List.Sorted, List.pairwise_append]
      refine ⟨?_, ?_, ?_⟩
      · exact List.Pairwise.sublist (List.take_sublist _ _)
          (hsorted.imp (fun h => selOrder_dist_le h))
      · simp
      · intro a ha b hb
        rw [List.mem_singleton.mp hb]
        exact selOrder_dist_le
          (sorted_rel_getLastD _ hsorted a (List.mem_of_mem_take ha))
  · intro x hx
    rw [select, ← hctr] at hx
    split at hx
    · exact hperm.mem_iff.mp hx
    · rcases List.mem_append.mp hx with h1 | h1
      · exact hperm.mem_iff.mp (List.mem_of_mem_take h1)
      · rw [List.mem_singleton.mp h1]
        have hne : List.insertionSort (selOrder ctr) members ≠ [] := by
          intro hh
          rename_i hlen
          rw [hh] at hlen
          exact hlen (by simp)
        exact hperm.mem_iff.mp (getLastD_mem defaultMember _ hne)
  · intro h2
    have hne : List.insertionSort (selOrder ctr) members ≠ [] := by
      intro hh
      have := hperm.length_eq
      rw [hh] at this
      simp at this
      omega
    refine ⟨(List.insertionSort (selOrder ctr) members).getLastD defaultMember,
      ?_, ?_⟩
    · rw [select, ← hctr]
      split
      · exact getLastD_mem defaultMember _ hne
      · exact List.mem_append_right _ (List.mem_singleton_self _)
    · intro m hm
      exact selOrder_dist_le (sorted_rel_getLastD _ hsorted m
        (hperm.symm.mem_iff.mp hm))
  · intro members' dim hp hnodup hdim
    have hctr' : centroid (members'.map Member.vec) = ctr :=
      (centroid_perm dim (hp.map Member.vec)
        (fun v hv => hdim v hv)).symm
    have hanti : ∀ a ∈ members, ∀ b ∈ members,
        selOrder ctr a b → selOrder ctr b a → a = b := by
      intro a ha b hb hab hba
      have hid : a.ntId = b.ntId := by
        rcases hab with h1 | ⟨h1, h1'⟩ <;> rcases hba with h2 | ⟨h2, h2'⟩
        · exact absurd h2 (lt_asymm h1)
        · exact absurd h2 (ne_of_gt h1)
        · exact absurd h1 (ne_of_gt h2)
        · omega
      exact List.inj_on_of_nodup_map hnodup ha hb hid
    have hsorted' : (List.insertionSort (selOrder ctr) members').Sorted
        (selOrder ctr) := List.sorted_insertionSort (selOrder ctr) members'
    have hperm' : (List.insertionSort (selOrder ctr) members').Perm members' :=
      List.perm_insertionSort (selOrder ctr) members'
    have hsameperm : (List.insertionSort (selOrder ctr) members).Perm
        (List.insertionSort (selOrder ctr) members') :=
      (hperm.trans hp).trans hperm'.symm
    have heqsort : List.insertionSort (selOrder ctr) members
        = List.insertionSort (selOrder ctr) members' :=
      eq_of_perm_of_sorted_anti hsameperm hsorted hsorted'
        (fun a ha b hb => hanti a (hperm.mem_iff.mp ha) b
          (hperm.mem_iff.mp hb))
    rw [select, select, hctr', ← hctr, heqsort]

/-- Demonstration cluster members for the witness: three one-dimensional
embeddings. -/
def membersDemo : List Member :=
  [⟨1, [0]⟩, ⟨2, [1]⟩, ⟨3, [5]⟩]

/-- Witness for C8 at a concrete three-member cluster with limit 2. -/
theorem C8_representative_selection_witness :
    (select 2 membersDemo).length ≤ 2
    ∧ (∀ x ∈ select 2 membersDemo, x ∈ membersDemo)
    ∧ (∃ far ∈ select 2 membersDemo,
        ∀ m ∈ membersDemo,
          sqDist (centroid (membersDemo.map Member.vec)) m.vec
            ≤ sqDist (centroid (membersDemo.map Member.vec)) far.vec)
    ∧ select 2 membersDemo = select 2 [⟨2, [1]⟩, ⟨1, [0]⟩, ⟨3, [5]⟩] := by
  obtain ⟨h1, _, h3, h4, h5⟩ :=
    C8_representative_selection 2 membersDemo (by decide)
  refine ⟨h1, h3, h4 (by decide), ?_⟩
  apply h5 [⟨2, [1]⟩, ⟨1, [0]⟩, ⟨3, [5]⟩] 1
  · decide
  · decide
  · decide

end PCA
